import Mathlib

/-!
Shallow embedding of the MDBN click model (pyclick/click_models/MDBN.py,
pyclick/search_session/MDBNResult.py) over exact rationals.

Conventions of the embedding:
* Python floats become `ℚ`; the log-domain accumulation
  `log_prob += math.log(t); ...; math.exp(log_prob)` is modelled as an exact
  product of the factors `t`, with `math.log` of a non-positive argument
  (a `ValueError` in Python) modelled as `Option.none`.
* Fallible operations (IndexError on list indexing, ZeroDivisionError,
  AttributeError, ValueError) are modelled by `Option`/`Except` failure.
* A search session is a `List MResult`; the per-rank current parameter
  values (`session_params` in the Python code) are a `List SessionParam`
  with one entry per rank.
-/

/-- An MDBN search result: document id, observed click flag, and observed
satisfaction flag (`None` in Python when undefined). This is the in-memory
shape consumed by the model (`MDBNResult` instances). -/
structure MResult where
  sr_id : Nat
  click : Bool
  sat : Option Bool
deriving DecidableEq, Repr

/-- Python truthiness of the stored satisfaction value: `None` and `0` are
falsy, `1` is truthy (`if result_sat:` in `_get_tail_clicks`). -/
def satTruthy : Option Bool → Bool
  | some true => true
  | _ => false

/-- Current values of the four estimated parameters at one rank, as read from
`session_params[rank][...].value()` by the MDBN classmethods. -/
structure SessionParam where
  attr : ℚ
  sat : ℚ
  cont_sat : ℚ
  cont_nosat : ℚ
deriving DecidableEq, Repr

/-- One entry of the session parameter frame built by
`MDBN.get_session_params`: the four estimated parameters together with the
derived `exam` and `car` values stored as `ParamStatic`. -/
structure FrameParam where
  base : SessionParam
  exam : ℚ
  car : ℚ
deriving DecidableEq, Repr

/-- One `log_prob += math.log t` step: the multiplicative contribution of the
factor `t`, failing (Python `ValueError: math domain error`) when `t ≤ 0`. -/
def plog (t : ℚ) : Option ℚ :=
  if 0 < t then some t else none

/-- Product of a list of factors accumulated in log space
(`sum(math.log p for p in ...)`), failing when any factor is non-positive. -/
def listLogProd : List ℚ → Option ℚ
  | [] => some 1
  | q :: rest => (plog q).bind fun a => (listLogProd rest).map fun b => a * b

/-- Ranks of the clicked results of a session, in increasing order. -/
def clickedRanks (results : List MResult) : List Nat :=
  (List.range results.length).filter fun i =>
    ((results.get? i).map MResult.click).getD false

/-- Modelled from the spec: `SearchSession.get_last_click_rank` lives in the
generic session model outside this repository's source tree.  Per the spec it
is "the rank of the last clicked result" used in the guard
`rank >= last_click_rank` ("no click occurs after this rank in the session");
when no result was clicked it evaluates to the session length, so that the
guard in the continuation factor treats every rank of a clickless session as
being followed by the (empty) set of clicks. -/
def lastClickRank (results : List MResult) : Nat :=
  ((clickedRanks results).getLast?).getD results.length

/-- The per-step multiplier of the diagnostic examination recursion
(`MDBN._get_session_exam`):
`cont_nosat * ((1 - sat) * attr + (1 - attr)) + cont_sat * attr * sat`. -/
def examStep (p : SessionParam) : ℚ :=
  p.cont_nosat * ((1 - p.sat) * p.attr + (1 - p.attr)) + p.cont_sat * p.attr * p.sat

/-- Worker of `sessionExam`: the running examination probability `e` is
recorded, then multiplied by `examStep` for the next rank. -/
def sessionExamAux : List SessionParam → ℚ → List ℚ
  | [], e => [e]
  | p :: ps, e => e :: sessionExamAux ps (e * examStep p)

/-- `MDBN._get_session_exam`: the list `[E_0, E_1, ..., E_n]` of unconditional
examination probabilities, starting from `E_0 = 1`. -/
def sessionExam (params : List SessionParam) : List ℚ :=
  sessionExamAux params 1

/-- `MDBN._get_session_clickafterrank`: the backward recursion
`car[n] = 0`, `car[r] = attr_r + (1 - attr_r) * cont_nosat_r * car[r+1]`,
returning `[car_0, ..., car_n]`. -/
def sessionCar : List SessionParam → List ℚ
  | [] => [0]
  | p :: ps =>
      let cars := sessionCar ps
      (p.attr + (1 - p.attr) * p.cont_nosat * cars.headD 0) :: cars

/-- Worker of `tailClicks`: walks the remaining results, reading
`session_params[i]` where `i` is the index within the suffix (exactly as the
Python `enumerate` over `web_results[start_rank:]` does), carrying the running
examination probability.  Fails on a missing parameter entry (IndexError) or
on division by a zero click probability (ZeroDivisionError). -/
def tailClicksAux : List MResult → Nat → List SessionParam → ℚ → Option (List ℚ × List ℚ)
  | [], _, _, _ => some ([], [])
  | r :: rest, i, params, exam =>
    match params.get? i with
    | none => none
    | some p =>
      if r.click then
        let click_prob := p.attr * exam
        let exam2 := if satTruthy r.sat then p.cont_sat else p.cont_nosat
        (tailClicksAux rest (i + 1) params exam2).map fun cs =>
          (click_prob :: cs.1, exam2 :: cs.2)
      else
        let click_prob := 1 - p.attr * exam
        if click_prob = 0 then none
        else
          let exam2 := exam * p.cont_nosat * (1 - p.attr) / click_prob
          (tailClicksAux rest (i + 1) params exam2).map fun cs =>
            (click_prob :: cs.1, exam2 :: cs.2)

/-- `MDBN._get_tail_clicks`: the exact forward pass over the session suffix
starting at `start_rank`, returning the per-rank click probabilities and the
examination probabilities (the latter list led by the initial value `1`). -/
def tailClicks (results : List MResult) (start_rank : Nat)
    (params : List SessionParam) : Option (List ℚ × List ℚ) :=
  (tailClicksAux (results.drop start_rank) 0 params 1).map fun cs =>
    (cs.1, 1 :: cs.2)

/-- Part (1) of the continuation factor: multiply the accumulated probability
by the examination marginal `P(E_r = x | C_{<r})`, looked up at index `rank`
in the examination sequence of the forward pass started at rank 0. -/
def contExam (results : List MResult) (params : List SessionParam) (rank : Nat)
    (x : Bool) (prob : ℚ) : Option ℚ :=
  (tailClicks results 0 params).bind fun tc =>
  (tc.2.get? rank).bind fun exam =>
  (plog (if x then exam else 1 - exam)).map fun f => prob * f

/-- Part (5) of the continuation factor: the tail gate (`z = 0` and a click
after `rank` force probability 0) and the tail likelihood (`z = 1` multiplies
by the product of the click probabilities of the pass restarted at
`rank + 1`), followed by the examination marginal of part (1). -/
def contTail (results : List MResult) (params : List SessionParam) (rank : Nat)
    (x z : Bool) (prob : ℚ) : Option ℚ :=
  if !z then
    if rank + 1 ≤ lastClickRank results then some 0
    else contExam results params rank x prob
  else if rank + 1 < results.length then
    (tailClicks results (rank + 1) params).bind fun tc =>
    (listLogProd tc.1).bind fun t =>
    contExam results params rank x (prob * t)
  else contExam results params rank x prob

/-- `MDBN._get_continuation_factor`: the unnormalized joint probability
`Phi(x, y, z)` for the hidden triple at `rank`, mirroring the Python control
flow: early `return 0.0` branches are `some 0` (and skip every later factor),
a `math.log` domain error or a failing forward pass is `none`. -/
def continuationFactor (results : List MResult) (params : List SessionParam)
    (rank : Nat) (x y z : Bool) : Option ℚ :=
  match results.get? rank, params.get? rank with
  | some result, some p =>
    if !result.click then
      if y then some 0
      else if x then
        (plog (if z then p.cont_nosat else 1 - p.cont_nosat)).bind fun c =>
        (plog (1 - p.attr)).bind fun a =>
        contTail results params rank x z (c * a)
      else if z then some 0
      else
        (plog (1 - p.attr)).bind fun a =>
        contTail results params rank x z a
    else
      if !x then some 0
      else if !y then
        (plog (1 - p.sat)).bind fun s =>
        (plog (if z then p.cont_nosat else 1 - p.cont_nosat)).bind fun c =>
        (plog p.attr).bind fun a =>
        contTail results params rank x z (s * c * a)
      else
        (plog p.sat).bind fun s =>
        (plog (if z then p.cont_sat else p.cont_nosat)).bind fun c =>
        (plog p.attr).bind fun a =>
        contTail results params rank x z (s * c * a)
  | _, _ => none

/-- The normalizing sum `Σ_{x,y,z ∈ {0,1}} Phi(x,y,z)` computed by the
continuation EM updates (`sum(factor(*p) for p in itertools.product...)`). -/
def phiTotal (results : List MResult) (params : List SessionParam)
    (rank : Nat) : Option ℚ :=
  (continuationFactor results params rank false false false).bind fun v0 =>
  (continuationFactor results params rank false false true).bind fun v1 =>
  (continuationFactor results params rank false true false).bind fun v2 =>
  (continuationFactor results params rank false true true).bind fun v3 =>
  (continuationFactor results params rank true false false).bind fun v4 =>
  (continuationFactor results params rank true false true).bind fun v5 =>
  (continuationFactor results params rank true true false).bind fun v6 =>
  (continuationFactor results params rank true true true).map fun v7 =>
  v0 + v1 + v2 + v3 + v4 + v5 + v6 + v7

/-- `MDBN.get_session_params`: extends the per-rank estimated parameters with
the derived `exam` (from `_get_session_exam`) and `car`
(from `_get_session_clickafterrank`) values at the same rank. -/
def get_session_params (params : List SessionParam) : List FrameParam :=
  List.zipWith (fun p ec => ⟨p, ec.1, ec.2⟩) params
    ((sessionExam params).zip (sessionCar params))

/-- `MDBN.get_full_click_probs`: per-rank `attr * exam`, reading `exam` from
the session parameter frame (i.e. the diagnostic recursion of
`_get_session_exam`, not the exact forward pass). -/
def get_full_click_probs (params : List SessionParam) : List ℚ :=
  (get_session_params params).map fun f => f.base.attr * f.exam

/-- `MDBN.get_conditional_click_probs`: the click-probability component of the
exact forward pass started at rank 0, run on the session parameter frame
(whose four estimated fields are the original parameter values). -/
def get_conditional_click_probs (results : List MResult)
    (params : List SessionParam) : Option (List ℚ) :=
  (tailClicks results 0 ((get_session_params params).map FrameParam.base)).map
    Prod.fst

/-- Python attribute lookup `search_session.web_results.click` performed by
`MDBNAttrEM.update`: `web_results` is a plain Python list, which has no
attribute `click`, so the lookup raises `AttributeError` for every session. -/
def webResultsClick : List MResult → Option Bool := fun _ => none

/-- `MDBNAttrEM.update`: the attractiveness EM accumulation for one
`(session, rank)`, acting on the `(numerator, denominator)` accumulator pair.
The body after the initial (always failing) attribute lookup is translated
faithfully; division by a zero `1 - exam * car` would be a
`ZeroDivisionError`. -/
def MDBNAttrEM_update (results : List MResult) (rank : Nat)
    (session_params : List FrameParam) (num den : ℚ) : Option (ℚ × ℚ) :=
  match webResultsClick results with
  | none => none
  | some c =>
    if c then some (num + 1, den + 1)
    else if lastClickRank results ≤ rank then
      match session_params.get? rank with
      | none => none
      | some f =>
        let n := (1 - f.exam) * f.base.attr
        let d := 1 - f.exam * f.car
        if d = 0 then none else some (num + n / d, den + 1)
    else some (num, den + 1)

/-- `MDBNResult.__init__`: stores the id and click, keeps `sat = None`
undefined, stores `sat` when it is `0` or `1`, and raises `RuntimeError` for
any other satisfaction value.  The stored flag is returned as the constructed
result. -/
def MDBNResult_init (search_result_id : Nat) (click : Bool)
    (sat : Option Int) : Except String MResult :=
  match sat with
  | none => Except.ok ⟨search_result_id, click, none⟩
  | some v =>
      if v = 0 ∨ v = 1 then Except.ok ⟨search_result_id, click, some (v = 1)⟩
      else Except.error "Invalid satisfaction value"

/-- All four estimated parameter values at a rank lie strictly inside (0, 1). -/
def pOK (p : SessionParam) : Prop :=
  0 < p.attr ∧ p.attr < 1 ∧ 0 < p.sat ∧ p.sat < 1 ∧
  0 < p.cont_sat ∧ p.cont_sat < 1 ∧ 0 < p.cont_nosat ∧ p.cont_nosat < 1

instance (p : SessionParam) : Decidable (pOK p) := by unfold pOK; infer_instance

/-- All four estimated parameter values at a rank lie in the closed
interval [0, 1]. -/
def pIn01 (p : SessionParam) : Prop :=
  0 ≤ p.attr ∧ p.attr ≤ 1 ∧ 0 ≤ p.sat ∧ p.sat ≤ 1 ∧
  0 ≤ p.cont_sat ∧ p.cont_sat ≤ 1 ∧ 0 ≤ p.cont_nosat ∧ p.cont_nosat ≤ 1

instance (p : SessionParam) : Decidable (pIn01 p) := by unfold pIn01; infer_instance

/-- Every per-rank parameter entry lies strictly inside (0, 1). -/
def StrictParams (params : List SessionParam) : Prop := ∀ p ∈ params, pOK p

instance (params : List SessionParam) : Decidable (StrictParams params) :=
  List.decidableBAll pOK params

/-- Every per-rank parameter entry lies in [0, 1]. -/
def WeakParams (params : List SessionParam) : Prop := ∀ p ∈ params, pIn01 p

instance (params : List SessionParam) : Decidable (WeakParams params) :=
  List.decidableBAll pIn01 params

/-- The session's observations are consistent with the model: satisfaction is
never asserted without an accompanying click. -/
def Consistent (results : List MResult) : Prop :=
  ∀ r ∈ results, r.sat = some true → r.click = true

instance (results : List MResult) : Decidable (Consistent results) :=
  List.decidableBAll _ results

/-- C1: the attractiveness EM update reads `search_session.web_results.click`
on the Python list of results, which raises `AttributeError` on every call:
the accumulator is never incremented and the update never completes, for any
session, rank, frame and accumulator state. -/
theorem attr_update_raises_attribute_error
    (results : List MResult) (rank : Nat) (session_params : List FrameParam)
    (num den : ℚ) :
    MDBNAttrEM_update results rank session_params num den = none := rfl

/-- C2: for a clicked result with hidden satisfaction `y = 1` and `z = 0`,
`Phi(1,1,0)` carries the factor `cont_nosat` (here `3/5`) and not
`1 - cont_sat` (here `1/10`): with `sat = 1/5`, `cont_sat = 9/10`,
`cont_nosat = 3/5`, `attr = 1/2` the factor evaluates to
`sat * cont_nosat * attr = 3/50`, which differs from the claimed
`sat * (1 - cont_sat) * attr = 1/100`. -/
theorem phi_clicked_sat_nocont_uses_cont_nosat :
    continuationFactor [⟨0, true, some false⟩] [⟨1/2, 1/5, 9/10, 3/5⟩] 0
        true true false
      = some (1/5 * (3/5) * (1/2)) ∧
    (1/5 * (3/5) * (1/2) : ℚ) ≠ 1/5 * (1 - 9/10) * (1/2) := by
  constructor
  · norm_num [continuationFactor, contTail, contExam, plog, listLogProd,
      tailClicks, tailClicksAux, satTruthy, lastClickRank, clickedRanks,
      List.range_succ]
  · norm_num

/-- C3: at a non-clicked rank with hidden assignment `(x,y,z) = (0,0,0)` the
factor still multiplies by `(1 - attr)`: for the session
`[{click:1, sat:0}, {click:0}]` at rank 1 with `attr = 1/2` and examination
marginal `3/5`, it evaluates to `(1 - attr) * (1 - exam) = 1/5` instead of
the claimed bare examination marginal `(1 - exam) = 2/5`. -/
theorem phi_unexamined_keeps_attraction_factor :
    continuationFactor [⟨0, true, some false⟩, ⟨1, false, none⟩]
        [⟨1/2, 1/5, 9/10, 3/5⟩, ⟨1/2, 1/5, 9/10, 3/5⟩] 1 false false false
      = some ((1 - 1/2) * (1 - 3/5)) ∧
    ((1 - 1/2) * (1 - 3/5) : ℚ) ≠ 1 - 3/5 := by
  constructor
  · norm_num [continuationFactor, contTail, contExam, plog, listLogProd,
      tailClicks, tailClicksAux, satTruthy, lastClickRank, clickedRanks,
      List.range_succ]
  · norm_num

/-- C4 counterexample: constructing an `MDBNResult` with `click = 0` and
`sat = 1` does not raise; the result is built with the satisfaction flag
stored. -/
theorem result_sat_without_click_accepted :
    MDBNResult_init 7 false (some 1) = Except.ok ⟨7, false, some true⟩ := rfl

/-- C4 amended: the constructor validates only the domain of the satisfaction
value: `click = 0, sat = 1` is accepted and stored, while any satisfaction
value outside `{0, 1}` raises `RuntimeError`. -/
theorem result_init_domain_validation (i : Nat) (c : Bool) (v : Int)
    (h0 : v ≠ 0) (h1 : v ≠ 1) :
    MDBNResult_init i c (some 1) = Except.ok ⟨i, c, some true⟩ ∧
    MDBNResult_init i c (some v) = Except.error "Invalid satisfaction value" := by
  constructor
  · simp [MDBNResult_init]
  · simp [MDBNResult_init, h0, h1]

/-- C4 witness: the amended statement at `i = 7`, `c = false`, `v = 2`. -/
theorem result_init_domain_validation_witness :
    (2 : Int) ≠ 0 ∧ (2 : Int) ≠ 1 ∧
    MDBNResult_init 7 false (some 1) = Except.ok ⟨7, false, some true⟩ ∧
    MDBNResult_init 7 false (some 2) = Except.error "Invalid satisfaction value" :=
  ⟨by decide, by decide,
   (result_init_domain_validation 7 false 2 (by decide) (by decide)).1,
   (result_init_domain_validation 7 false 2 (by decide) (by decide)).2⟩

/-- C6 counterexample: for the one-result session `[{click:0}]` with
`attr = 3/10`, `get_full_click_probs` yields `[3/10]` (the diagnostic
`attr * exam`), while the forward pass behind `get_conditional_click_probs`
yields `[7/10]`: the two exposed sequences do not come from the same scan. -/
theorem full_probs_differ_from_forward_pass :
    some (get_full_click_probs [⟨3/10, 1/2, 1/2, 1/2⟩]) ≠
      get_conditional_click_probs [⟨0, false, none⟩] [⟨3/10, 1/2, 1/2, 1/2⟩] := by
  norm_num [get_full_click_probs, get_conditional_click_probs,
    get_session_params, sessionExam, sessionExamAux, sessionCar, examStep,
    tailClicks, tailClicksAux, satTruthy]

/-- C7: restarted at `start_rank = 1`, the forward pass prices the remaining
result (absolute rank 1) with the parameters of rank 0: with
`attr_0 = 3/10` and `attr_1 = 4/5` it returns click probability
`1 - 3/10 * 1 = 7/10`, not the claimed `1 - 4/5 * 1 = 1/5` of absolute
rank `start_rank + 0`. -/
theorem tail_clicks_misaligned_params :
    (tailClicks [⟨0, false, none⟩, ⟨1, false, none⟩] 1
        [⟨3/10, 1/2, 1/2, 1/2⟩, ⟨4/5, 1/2, 1/2, 1/2⟩]).map Prod.fst
      = some [1 - 3/10 * 1] ∧ (1 - 3/10 * 1 : ℚ) ≠ 1 - 4/5 * 1 := by
  constructor
  · norm_num [tailClicks, tailClicksAux, satTruthy]
  · norm_num

/-- C8: the two-rank session `[{click:1, sat:0}, {click:0}]` with
`attr = 1/2`, `sat = 1/5`, `cont_sat = 9/10`, `cont_nosat = 3/5` at both
ranks: the forward pass from rank 0 returns first click probability `1/2`,
examination `3/5 = cont_nosat` entering rank 2, and second click probability
`1 - 1/2 * (3/5)`. -/
theorem example3_forward_pass :
    tailClicks [⟨0, true, some false⟩, ⟨1, false, none⟩] 0
        [⟨1/2, 1/5, 9/10, 3/5⟩, ⟨1/2, 1/5, 9/10, 3/5⟩]
      = some ([1/2, 1 - 1/2 * (3/5)], [1, 3/5, 9/35]) := by
  norm_num [tailClicks, tailClicksAux, satTruthy]

theorem sessionExamAux_length (ps : List SessionParam) :
    ∀ e, (sessionExamAux ps e).length = ps.length + 1 := by
  induction ps with
  | nil => intro e; rfl
  | cons p ps ih => intro e; simp [sessionExamAux, ih]

theorem sessionExam_length (params : List SessionParam) :
    (sessionExam params).length = params.length + 1 :=
  sessionExamAux_length params 1

theorem sessionCar_length (params : List SessionParam) :
    (sessionCar params).length = params.length + 1 := by
  induction params with
  | nil => rfl
  | cons p ps ih => simp [sessionCar, ih]

theorem frame_base_map : ∀ (ps : List SessionParam) (a b : List ℚ),
    ps.length ≤ a.length → ps.length ≤ b.length →
    (List.zipWith (fun p ec => (⟨p, ec.1, ec.2⟩ : FrameParam)) ps
        (a.zip b)).map FrameParam.base = ps := by
  intro ps
  induction ps with
  | nil => intro a b _ _; simp
  | cons p ps ih =>
    intro a b ha hb
    cases a with
    | nil => simp at ha
    | cons u a =>
      cases b with
      | nil => simp at hb
      | cons w b =>
        have ha' : ps.length ≤ a.length := by simpa using ha
        have hb' : ps.length ≤ b.length := by simpa using hb
        simp [ih a b ha' hb']

theorem frame_attr_exam_map : ∀ (ps : List SessionParam) (a b : List ℚ),
    ps.length ≤ a.length → ps.length ≤ b.length →
    (List.zipWith (fun p ec => (⟨p, ec.1, ec.2⟩ : FrameParam)) ps
        (a.zip b)).map (fun f => f.base.attr * f.exam)
      = List.zipWith (fun p e => p.attr * e) ps a := by
  intro ps
  induction ps with
  | nil => intro a b _ _; simp
  | cons p ps ih =>
    intro a b ha hb
    cases a with
    | nil => simp at ha
    | cons u a =>
      cases b with
      | nil => simp at hb
      | cons w b =>
        have ha' : ps.length ≤ a.length := by simpa using ha
        have hb' : ps.length ≤ b.length := by simpa using hb
        simp [ih a b ha' hb']

/-- C6 amended: the two exposed sequences come from two different
recursions: `get_conditional_click_probs` is exactly the click-probability
component of the exact forward pass started at rank 0, while
`get_full_click_probs` returns `attr_r * E_r` with `E_r` the diagnostic
examination recursion of `_get_session_exam` (and the two differ in
general). -/
theorem click_probs_two_sources (results : List MResult)
    (params : List SessionParam) :
    get_conditional_click_probs results params
      = (tailClicks results 0 params).map Prod.fst ∧
    get_full_click_probs params
      = List.zipWith (fun p e => p.attr * e) params (sessionExam params) := by
  constructor
  · unfold get_conditional_click_probs get_session_params
    rw [frame_base_map params (sessionExam params) (sessionCar params)
      (by rw [sessionExam_length]; exact Nat.le_succ _)
      (by rw [sessionCar_length]; exact Nat.le_succ _)]
  · unfold get_full_click_probs get_session_params
    exact frame_attr_exam_map params _ _
      (by rw [sessionExam_length]; exact Nat.le_succ _)
      (by rw [sessionCar_length]; exact Nat.le_succ _)

theorem tailClicksAux_pos (params : List SessionParam) (hp : StrictParams params) :
    ∀ (rs : List MResult) (i : Nat) (e : ℚ),
    i + rs.length ≤ params.length → 0 < e → e ≤ 1 →
    ∃ cs es, tailClicksAux rs i params e = some (cs, es) ∧
      cs.length = rs.length ∧ es.length = rs.length ∧
      (∀ c ∈ cs, 0 < c ∧ c ≤ 1) ∧ (∀ q ∈ es, 0 < q ∧ q < 1) := by
  intro rs
  induction rs with
  | nil =>
    intro i e _ _ _
    exact ⟨[], [], rfl, rfl, rfl, by simp, by simp⟩
  | cons r rest ih =>
    intro i e hlen he0 he1
    have hi : i < params.length := by
      simp only [List.length_cons] at hlen; omega
    obtain ⟨p, hpget⟩ : ∃ p, params.get? i = some p :=
      ⟨_, List.get?_eq_get hi⟩
    have hpget2 : params[i]? = some p := by
      rw [← List.get?_eq_getElem?]; exact hpget
    obtain ⟨ha0, ha1, hs0, hs1, hg10, hg11, hg20, hg21⟩ :=
      hp p (List.get?_mem hpget)
    have hlen2 : i + 1 + rest.length ≤ params.length := by
      simp only [List.length_cons] at hlen; omega
    by_cases hc : r.click = true
    · have he20 : 0 < (if satTruthy r.sat then p.cont_sat else p.cont_nosat) := by
        split <;> assumption
      have he21 : (if satTruthy r.sat then p.cont_sat else p.cont_nosat) < 1 := by
        split <;> assumption
      obtain ⟨cs, es, heq, hcl, hel, hcb, heb⟩ :=
        ih (i + 1) _ hlen2 he20 he21.le
      refine ⟨p.attr * e :: cs,
        (if satTruthy r.sat then p.cont_sat else p.cont_nosat) :: es,
        ?_, by simp [hcl], by simp [hel], ?_, ?_⟩
      · simp [tailClicksAux, hpget2, hc, heq]
      · intro c hcm
        rcases List.mem_cons.mp hcm with h | h
        · subst h
          exact ⟨mul_pos ha0 he0, mul_le_one₀ ha1.le he0.le he1⟩
        · exact hcb c h
      · intro q hqm
        rcases List.mem_cons.mp hqm with h | h
        · subst h; exact ⟨he20, he21⟩
        · exact heb q h
    · have hc' : r.click = false := by revert hc; cases r.click <;> simp
      have haelt : p.attr * e < 1 :=
        lt_of_le_of_lt (mul_le_of_le_one_right ha0.le he1) ha1
      have hcp0 : 0 < 1 - p.attr * e := by linarith
      have hcplt : 1 - p.attr * e ≤ 1 := by nlinarith [mul_pos ha0 he0]
      have hnum0 : 0 < e * p.cont_nosat * (1 - p.attr) := by
        apply mul_pos (mul_pos he0 hg20); linarith
      have he2pos : 0 < e * p.cont_nosat * (1 - p.attr) / (1 - p.attr * e) :=
        div_pos hnum0 hcp0
      have he2lt : e * p.cont_nosat * (1 - p.attr) / (1 - p.attr * e) < 1 := by
        rw [div_lt_one hcp0]
        have h1 : e * p.cont_nosat * (1 - p.attr) < e * (1 - p.attr) := by
          nlinarith [mul_pos he0 (show (0:ℚ) < 1 - p.attr by linarith)]
        nlinarith
      obtain ⟨cs, es, heq, hcl, hel, hcb, heb⟩ :=
        ih (i + 1) _ hlen2 he2pos he2lt.le
      refine ⟨(1 - p.attr * e) :: cs,
        (e * p.cont_nosat * (1 - p.attr) / (1 - p.attr * e)) :: es,
        ?_, by simp [hcl], by simp [hel], ?_, ?_⟩
      · simp [tailClicksAux, hpget2, hc', hcp0.ne', heq]
      · intro c hcm
        rcases List.mem_cons.mp hcm with h | h
        · subst h; exact ⟨hcp0, hcplt⟩
        · exact hcb c h
      · intro q hqm
        rcases List.mem_cons.mp hqm with h | h
        · subst h; exact ⟨he2pos, he2lt⟩
        · exact heb q h

theorem tailClicks_pos (results : List MResult) (params : List SessionParam)
    (hp : StrictParams params) (hlen : results.length ≤ params.length)
    (start : Nat) :
    ∃ cs es, tailClicks results start params = some (cs, 1 :: es) ∧
      cs.length = results.length - start ∧ es.length = results.length - start ∧
      (∀ c ∈ cs, 0 < c ∧ c ≤ 1) ∧ (∀ q ∈ es, 0 < q ∧ q < 1) := by
  obtain ⟨cs, es, heq, hcl, hel, hcb, heb⟩ :=
    tailClicksAux_pos params hp (results.drop start) 0 1
      (by rw [List.length_drop]; omega) one_pos le_rfl
  refine ⟨cs, es, ?_, ?_, ?_, hcb, heb⟩
  · simp [tailClicks, heq]
  · rw [hcl, List.length_drop]
  · rw [hel, List.length_drop]

theorem listLogProd_pos : ∀ cs : List ℚ, (∀ c ∈ cs, 0 < c) →
    ∃ t, listLogProd cs = some t ∧ 0 < t := by
  intro cs
  induction cs with
  | nil => exact fun _ => ⟨1, rfl, one_pos⟩
  | cons c rest ih =>
    intro h
    obtain ⟨t, ht, ht0⟩ := ih fun q hq => h q (List.mem_cons_of_mem _ hq)
    have hc0 : 0 < c := h c (List.mem_cons_self _ _)
    exact ⟨c * t, by simp [listLogProd, plog, hc0, ht], mul_pos hc0 ht0⟩

theorem contExam_ok (results : List MResult) (params : List SessionParam)
    (rank : Nat) (x : Bool) (prob : ℚ)
    (hp : StrictParams params) (hlen : results.length ≤ params.length)
    (hrank : rank < results.length) (hprob : 0 < prob)
    (hx : x = false → 1 ≤ rank) :
    ∃ v, contExam results params rank x prob = some v ∧ 0 < v := by
  obtain ⟨cs, es, heq, hcl, hel, hcb, heb⟩ := tailClicks_pos results params hp hlen 0
  have hget : ∃ exam, (1 :: es).get? rank = some exam ∧ 0 < exam ∧
      (1 ≤ rank → exam < 1) := by
    cases rank with
    | zero => exact ⟨1, rfl, one_pos, by omega⟩
    | succ n =>
      have hn : n < es.length := by rw [hel]; omega
      obtain ⟨exam, hexam⟩ : ∃ exam, es.get? n = some exam :=
        ⟨_, List.get?_eq_get hn⟩
      have hb := heb exam (List.get?_mem hexam)
      exact ⟨exam, by rw [List.get?_cons_succ]; exact hexam, hb.1, fun _ => hb.2⟩
  obtain ⟨exam, hget, hex0, hexlt⟩ := hget
  have hget2 : (1 :: es)[rank]? = some exam := by
    rw [← List.get?_eq_getElem?]; exact hget
  have hplog : 0 < (if x then exam else 1 - exam) := by
    cases x with
    | true => simpa using hex0
    | false =>
      have := hexlt (hx rfl)
      simp only [Bool.false_eq_true, if_false]
      linarith
  exact ⟨prob * (if x then exam else 1 - exam),
    by simp [contExam, heq, hget2, plog, hplog], mul_pos hprob hplog⟩

theorem contTail_ok (results : List MResult) (params : List SessionParam)
    (rank : Nat) (x z : Bool) (prob : ℚ)
    (hp : StrictParams params) (hlen : results.length ≤ params.length)
    (hrank : rank < results.length) (hprob : 0 < prob)
    (hxz : x = false → z = false)
    (h0 : x = false → rank = 0 → rank + 1 ≤ lastClickRank results) :
    ∃ v, contTail results params rank x z prob = some v ∧ 0 ≤ v ∧
      (z = true → 0 < v) := by
  cases z with
  | true =>
    cases x with
    | false => exact absurd (hxz rfl) (by simp)
    | true =>
      by_cases hr : rank + 1 < results.length
      · obtain ⟨cs, es, heq, hcl, hel, hcb, heb⟩ :=
          tailClicks_pos results params hp hlen (rank + 1)
        obtain ⟨t, ht, ht0⟩ := listLogProd_pos cs fun c hc => (hcb c hc).1
        obtain ⟨v, hv, hv0⟩ := contExam_ok results params rank true (prob * t)
          hp hlen hrank (mul_pos hprob ht0) (by simp)
        exact ⟨v, by simp [contTail, hr, heq, ht, hv], hv0.le, fun _ => hv0⟩
      · obtain ⟨v, hv, hv0⟩ := contExam_ok results params rank true prob
          hp hlen hrank hprob (by simp)
        exact ⟨v, by simp [contTail, hr, hv], hv0.le, fun _ => hv0⟩
  | false =>
    by_cases hg : rank + 1 ≤ lastClickRank results
    · exact ⟨0, by simp [contTail, hg], le_refl 0, by simp⟩
    · have hx1 : x = false → 1 ≤ rank := by
        intro hxf
        by_contra hlt
        exact hg (h0 hxf (by omega))
      obtain ⟨v, hv, hv0⟩ := contExam_ok results params rank x prob
        hp hlen hrank hprob hx1
      exact ⟨v, by simp [contTail, hg, hv], hv0.le, by simp⟩

theorem getLast?_mem_nat : ∀ (l : List Nat) (a : Nat), l.getLast? = some a → a ∈ l := by
  intro l
  induction l with
  | nil => intro a h; cases h
  | cons b t ih =>
    intro a h
    cases t with
    | nil =>
      simp only [List.getLast?_singleton, Option.some.injEq] at h
      simp [h]
    | cons c t2 =>
      rw [List.getLast?_cons_cons] at h
      exact List.mem_cons_of_mem _ (ih a h)

theorem lastClickRank_ge_one (results : List MResult) (r0 : MResult)
    (hres : results.get? 0 = some r0) (hc : r0.click = false) :
    1 ≤ lastClickRank results := by
  have hlen0 : 0 < results.length := by
    rcases List.get?_eq_some.mp hres with ⟨h, _⟩
    omega
  unfold lastClickRank
  cases hlast : (clickedRanks results).getLast? with
  | none => simpa using hlen0
  | some m =>
    simp only [Option.getD_some]
    rcases Nat.eq_zero_or_pos m with hm | hm
    · subst hm
      have hmem := getLast?_mem_nat _ _ hlast
      have hpred := (List.mem_filter.mp hmem).2
      rw [hres] at hpred
      simp [hc] at hpred
    · omega

theorem continuationFactor_ok (results : List MResult) (params : List SessionParam)
    (rank : Nat) (hp : StrictParams params)
    (hlen : results.length ≤ params.length) (hrank : rank < results.length) :
    ∀ x y z, ∃ v, continuationFactor results params rank x y z = some v ∧
      0 ≤ v ∧ (x = true → y = false → z = true → 0 < v) := by
  intro x y z
  obtain ⟨result, hres⟩ : ∃ r, results.get? rank = some r :=
    ⟨_, List.get?_eq_get hrank⟩
  obtain ⟨p, hpar⟩ : ∃ p, params.get? rank = some p :=
    ⟨_, List.get?_eq_get (lt_of_lt_of_le hrank hlen)⟩
  have hres2 : results[rank]? = some result := by
    rw [← List.get?_eq_getElem?]; exact hres
  have hpar2 : params[rank]? = some p := by
    rw [← List.get?_eq_getElem?]; exact hpar
  obtain ⟨ha0, ha1, hs0, hs1, hg10, hg11, hg20, hg21⟩ := hp p (List.get?_mem hpar)
  by_cases hc : result.click = true
  · cases x with
    | false =>
      exact ⟨0, by simp [continuationFactor, hres2, hpar2, hc], le_refl 0, by simp⟩
    | true =>
      cases y with
      | false =>
        have h1 : 0 < 1 - p.sat := by linarith
        have h2 : 0 < (if z then p.cont_nosat else 1 - p.cont_nosat) := by
          cases z <;> simp <;> linarith
        obtain ⟨v, hv, hvn, hvp⟩ := contTail_ok results params rank true z
          ((1 - p.sat) * (if z then p.cont_nosat else 1 - p.cont_nosat) * p.attr)
          hp hlen hrank (mul_pos (mul_pos h1 h2) ha0) (by simp) (by simp)
        refine ⟨v, ?_, hvn, fun _ _ hz => hvp hz⟩
        simp only [mul_ite, ite_mul] at hv
        simp [continuationFactor, hres2, hpar2, hc, plog, h1, h2, ha0, ha1, hs1, hv]
      | true =>
        have h2 : 0 < (if z then p.cont_sat else p.cont_nosat) := by
          cases z <;> simpa
        obtain ⟨v, hv, hvn, hvp⟩ := contTail_ok results params rank true z
          (p.sat * (if z then p.cont_sat else p.cont_nosat) * p.attr)
          hp hlen hrank (mul_pos (mul_pos hs0 h2) ha0) (by simp) (by simp)
        refine ⟨v, ?_, hvn, by simp⟩
        simp only [mul_ite, ite_mul] at hv
        simp [continuationFactor, hres2, hpar2, hc, plog, hs0, h2, ha0, hv]
  · have hc' : result.click = false := by revert hc; cases result.click <;> simp
    cases y with
    | true =>
      exact ⟨0, by simp [continuationFactor, hres2, hpar2, hc'], le_refl 0, by simp⟩
    | false =>
      have h1 : 0 < 1 - p.attr := by linarith
      cases x with
      | true =>
        have h2 : 0 < (if z then p.cont_nosat else 1 - p.cont_nosat) := by
          cases z <;> simp <;> linarith
        obtain ⟨v, hv, hvn, hvp⟩ := contTail_ok results params rank true z
          ((if z then p.cont_nosat else 1 - p.cont_nosat) * (1 - p.attr))
          hp hlen hrank (mul_pos h2 h1) (by simp) (by simp)
        refine ⟨v, ?_, hvn, fun _ _ hz => hvp hz⟩
        simp only [mul_ite, ite_mul] at hv
        simp [continuationFactor, hres2, hpar2, hc', plog, h1, h2, ha1, hv]
      | false =>
        cases z with
        | true =>
          exact ⟨0, by simp [continuationFactor, hres2, hpar2, hc'], le_refl 0, by simp⟩
        | false =>
          have h0 : rank = 0 → rank + 1 ≤ lastClickRank results := by
            intro hr0
            subst hr0
            simpa using lastClickRank_ge_one results result hres hc'
          obtain ⟨v, hv, hvn, hvp⟩ := contTail_ok results params rank false false
            (1 - p.attr) hp hlen hrank h1 (fun _ => rfl) (fun _ => h0)
          refine ⟨v, ?_, hvn, by simp⟩
          simp [continuationFactor, hres2, hpar2, hc', plog, h1, ha1, hv]

/-- C5: for a session whose observations are consistent with the model and
whose parameter values lie strictly in (0,1), every one of the 8 hidden
assignments evaluates without raising (structurally impossible ones give
`0.0`), and the joint sum over all 8 assignments is strictly positive. -/
theorem phi_joint_sum_positive (results : List MResult)
    (params : List SessionParam) (rank : Nat)
    (hlen : results.length ≤ params.length) (hrank : rank < results.length)
    (hp : StrictParams params) (hcons : Consistent results) :
    (∀ x y z, (continuationFactor results params rank x y z).isSome) ∧
    ∃ s, phiTotal results params rank = some s ∧ 0 < s := by
  have hok := continuationFactor_ok results params rank hp hlen hrank
  refine ⟨fun x y z => ?_, ?_⟩
  · obtain ⟨v, hv, _⟩ := hok x y z
    simp [hv]
  · obtain ⟨v0, h0, h0n, _⟩ := hok false false false
    obtain ⟨v1, h1, h1n, _⟩ := hok false false true
    obtain ⟨v2, h2, h2n, _⟩ := hok false true false
    obtain ⟨v3, h3, h3n, _⟩ := hok false true true
    obtain ⟨v4, h4, h4n, _⟩ := hok true false false
    obtain ⟨v5, h5, h5n, h5p⟩ := hok true false true
    obtain ⟨v6, h6, h6n, _⟩ := hok true true false
    obtain ⟨v7, h7, h7n, _⟩ := hok true true true
    refine ⟨v0 + v1 + v2 + v3 + v4 + v5 + v6 + v7, ?_, ?_⟩
    · simp [phiTotal, h0, h1, h2, h3, h4, h5, h6, h7]
    · have hpos := h5p rfl rfl rfl
      linarith

/-- C5 witness: the one-result clickless session at rank 0 with all
parameters 1/2; the examination marginal there is exactly 1. -/
theorem phi_joint_sum_positive_witness :
    StrictParams [⟨1/2, 1/2, 1/2, 1/2⟩] ∧
    Consistent [⟨0, false, none⟩] ∧
    (continuationFactor [⟨0, false, none⟩] [⟨1/2, 1/2, 1/2, 1/2⟩] 0
        true false true).isSome = true ∧
    (phiTotal [⟨0, false, none⟩] [⟨1/2, 1/2, 1/2, 1/2⟩] 0).isSome = true ∧
    (tailClicks [⟨0, false, none⟩] 0 [⟨1/2, 1/2, 1/2, 1/2⟩]).map
        (fun t => t.2.get? 0) = some (some 1) := by
  have hp : StrictParams [(⟨1/2, 1/2, 1/2, 1/2⟩ : SessionParam)] := by
    intro p hpm
    simp only [List.mem_singleton] at hpm
    subst hpm
    refine ⟨by norm_num, by norm_num, by norm_num, by norm_num,
      by norm_num, by norm_num, by norm_num, by norm_num⟩
  have hcons : Consistent [(⟨0, false, none⟩ : MResult)] := by
    intro r hr
    simp only [List.mem_singleton] at hr
    subst hr
    simp
  have h := phi_joint_sum_positive [⟨0, false, none⟩] [⟨1/2, 1/2, 1/2, 1/2⟩] 0
    (by simp) (by simp) hp hcons
  refine ⟨hp, hcons, h.1 true false true, ?_, ?_⟩
  · obtain ⟨s, hs, _⟩ := h.2
    rw [hs]
    rfl
  · norm_num [tailClicks, tailClicksAux, satTruthy]

theorem tailClicksAux_bounds (params : List SessionParam) (hw : WeakParams params) :
    ∀ (rs : List MResult) (i : Nat) (e : ℚ) (cs es : List ℚ),
    0 ≤ e → e ≤ 1 → tailClicksAux rs i params e = some (cs, es) →
    (∀ c ∈ cs, 0 ≤ c ∧ c ≤ 1) ∧ (∀ q ∈ es, 0 ≤ q ∧ q ≤ 1) := by
  intro rs
  induction rs with
  | nil =>
    intro i e cs es _ _ heq
    simp only [tailClicksAux, Option.some.injEq, Prod.mk.injEq] at heq
    obtain ⟨h1, h2⟩ := heq
    subst h1
    subst h2
    exact ⟨by simp, by simp⟩
  | cons r rest ih =>
    intro i e cs es he0 he1 heq
    cases hpg : params.get? i with
    | none => simp only [tailClicksAux, hpg] at heq; cases heq
    | some p =>
      obtain ⟨ha0, ha1, hs0b, hs1b, hg10, hg11, hg20, hg21⟩ :=
        hw p (List.get?_mem hpg)
      by_cases hc : r.click = true
      · simp only [tailClicksAux, hpg, hc, if_true] at heq
        cases hrec : tailClicksAux rest (i + 1) params
            (if satTruthy r.sat then p.cont_sat else p.cont_nosat) with
        | none => rw [hrec] at heq; cases heq
        | some pr =>
          rw [hrec] at heq
          simp only [Option.map_some', Option.some.injEq, Prod.mk.injEq] at heq
          obtain ⟨h1, h2⟩ := heq
          subst h1
          subst h2
          have he2b : 0 ≤ (if satTruthy r.sat then p.cont_sat else p.cont_nosat) ∧
              (if satTruthy r.sat then p.cont_sat else p.cont_nosat) ≤ 1 := by
            split
            · exact ⟨hg10, hg11⟩
            · exact ⟨hg20, hg21⟩
          obtain ⟨hcb, heb⟩ := ih (i + 1) _ pr.1 pr.2 he2b.1 he2b.2 (by rw [hrec])
          constructor
          · intro c hcm
            rcases List.mem_cons.mp hcm with h | h
            · subst h
              exact ⟨mul_nonneg ha0 he0, mul_le_one₀ ha1 he0 he1⟩
            · exact hcb c h
          · intro q hqm
            rcases List.mem_cons.mp hqm with h | h
            · subst h; exact he2b
            · exact heb q h
      · have hc2 : r.click = false := by revert hc; cases r.click <;> simp
        simp only [tailClicksAux, hpg, hc2, Bool.false_eq_true, if_false] at heq
        have hcpn : 0 ≤ 1 - p.attr * e := by
          have := mul_le_one₀ ha1 he0 he1
          linarith
        by_cases hz : 1 - p.attr * e = 0
        · rw [if_pos hz] at heq; cases heq
        · rw [if_neg hz] at heq
          have hcp0 : 0 < 1 - p.attr * e := lt_of_le_of_ne hcpn (Ne.symm hz)
          cases hrec : tailClicksAux rest (i + 1) params
              (e * p.cont_nosat * (1 - p.attr) / (1 - p.attr * e)) with
          | none => rw [hrec] at heq; cases heq
          | some pr =>
            rw [hrec] at heq
            simp only [Option.map_some', Option.some.injEq, Prod.mk.injEq] at heq
            obtain ⟨h1, h2⟩ := heq
            subst h1
            subst h2
            have hnum : 0 ≤ e * p.cont_nosat * (1 - p.attr) := by
              apply mul_nonneg (mul_nonneg he0 hg20)
              linarith
            have he2a : 0 ≤ e * p.cont_nosat * (1 - p.attr) / (1 - p.attr * e) :=
              div_nonneg hnum hcpn
            have he2b : e * p.cont_nosat * (1 - p.attr) / (1 - p.attr * e) ≤ 1 := by
              rw [div_le_one hcp0]
              nlinarith [mul_nonneg he0 (by linarith : (0:ℚ) ≤ 1 - p.attr)]
            obtain ⟨hcb, heb⟩ := ih (i + 1) _ pr.1 pr.2 he2a he2b (by rw [hrec])
            constructor
            · intro c hcm
              rcases List.mem_cons.mp hcm with h | h
              · subst h
                constructor
                · exact hcpn
                · nlinarith [mul_nonneg ha0 he0]
              · exact hcb c h
            · intro q hqm
              rcases List.mem_cons.mp hqm with h | h
              · subst h; exact ⟨he2a, he2b⟩
              · exact heb q h

theorem examStep_bounds (p : SessionParam) (hb : pIn01 p) :
    0 ≤ examStep p ∧ examStep p ≤ 1 := by
  obtain ⟨ha0, ha1, hs0, hs1, hg10, hg11, hg20, hg21⟩ := hb
  unfold examStep
  constructor
  · have hA : 0 ≤ (1 - p.sat) * p.attr + (1 - p.attr) := by nlinarith
    nlinarith [mul_nonneg hg20 hA, mul_nonneg (mul_nonneg hg10 ha0) hs0]
  · have hA : 0 ≤ (1 - p.sat) * p.attr + (1 - p.attr) := by nlinarith
    nlinarith [mul_nonneg (by linarith : (0:ℚ) ≤ 1 - p.cont_nosat) hA,
      mul_nonneg (by linarith : (0:ℚ) ≤ 1 - p.cont_sat) (mul_nonneg ha0 hs0)]

theorem sessionExamAux_bounds : ∀ (ps : List SessionParam),
    (∀ p ∈ ps, pIn01 p) → ∀ e, 0 ≤ e → e ≤ 1 →
    ∀ q ∈ sessionExamAux ps e, 0 ≤ q ∧ q ≤ 1 := by
  intro ps
  induction ps with
  | nil =>
    intro _ e he0 he1 q hq
    simp only [sessionExamAux, List.mem_singleton] at hq
    subst hq
    exact ⟨he0, he1⟩
  | cons p rest ih =>
    intro hws e he0 he1 q hq
    simp only [sessionExamAux, List.mem_cons] at hq
    obtain ⟨hm0, hm1⟩ := examStep_bounds p (hws p (List.mem_cons_self _ _))
    rcases hq with rfl | hq
    · exact ⟨he0, he1⟩
    · exact ih (fun p2 hp2 => hws p2 (List.mem_cons_of_mem _ hp2))
        (e * examStep p) (mul_nonneg he0 hm0) (mul_le_one₀ he1 hm0 hm1) q hq

theorem sessionCar_ne_nil : ∀ ps : List SessionParam, sessionCar ps ≠ [] := by
  intro ps
  cases ps <;> simp [sessionCar]

theorem sessionCar_bounds : ∀ (ps : List SessionParam),
    (∀ p ∈ ps, pIn01 p) → ∀ c ∈ sessionCar ps, 0 ≤ c ∧ c ≤ 1 := by
  intro ps
  induction ps with
  | nil =>
    intro _ c hc
    simp only [sessionCar, List.mem_singleton] at hc
    subst hc
    norm_num
  | cons p rest ih =>
    intro hws c hc
    have hrest := ih fun q hq => hws q (List.mem_cons_of_mem _ hq)
    obtain ⟨ha0, ha1, _, _, _, _, hg20, hg21⟩ := hws p (List.mem_cons_self _ _)
    have hhead : 0 ≤ (sessionCar rest).headD 0 ∧ (sessionCar rest).headD 0 ≤ 1 := by
      cases hsc : sessionCar rest with
      | nil => exact absurd hsc (sessionCar_ne_nil rest)
      | cons a t =>
        simp only [List.headD_cons]
        exact hrest a (by rw [hsc]; exact List.mem_cons_self _ _)
    simp only [sessionCar, List.mem_cons] at hc
    rcases hc with rfl | hc
    · constructor
      · nlinarith [mul_nonneg (mul_nonneg (by linarith : (0:ℚ) ≤ 1 - p.attr) hg20)
          hhead.1]
      · nlinarith [mul_nonneg (by linarith : (0:ℚ) ≤ 1 - p.attr)
          (by nlinarith [mul_le_one₀ hg21 hhead.1 hhead.2] :
            (0:ℚ) ≤ 1 - p.cont_nosat * (sessionCar rest).headD 0)]
    · exact hrest c hc

/-- C9: with all current parameter values in [0, 1] and a forward pass that
succeeds with no zero click probability, every entry of the diagnostic
examination recursion, of the backward click-after-rank recursion, and of the
forward pass (click and examination probabilities alike) lies in [0, 1]. -/
theorem recursion_entries_bounded (results : List MResult)
    (params : List SessionParam) (start : Nat) (cs es : List ℚ)
    (hw : WeakParams params)
    (ht : tailClicks results start params = some (cs, es))
    (hnz : ∀ c ∈ cs, c ≠ 0) :
    (∀ q ∈ sessionExam params, 0 ≤ q ∧ q ≤ 1) ∧
    (∀ c ∈ sessionCar params, 0 ≤ c ∧ c ≤ 1) ∧
    (∀ c ∈ cs, 0 ≤ c ∧ c ≤ 1) ∧ (∀ q ∈ es, 0 ≤ q ∧ q ≤ 1) := by
  cases haux : tailClicksAux (results.drop start) 0 params 1 with
  | none => rw [tailClicks, haux] at ht; cases ht
  | some pr =>
    rw [tailClicks, haux] at ht
    simp only [Option.map_some', Option.some.injEq, Prod.mk.injEq] at ht
    obtain ⟨h1, h2⟩ := ht
    subst h1
    subst h2
    obtain ⟨hcb, heb⟩ := tailClicksAux_bounds params hw (results.drop start) 0 1
      pr.1 pr.2 zero_le_one le_rfl (by rw [haux])
    refine ⟨sessionExamAux_bounds params hw 1 zero_le_one le_rfl,
      sessionCar_bounds params hw, hcb, ?_⟩
    intro q hq
    rcases List.mem_cons.mp hq with h | h
    · subst h; norm_num
    · exact heb q h

/-- C9 witness: the one-result clickless session with all parameters 1/2;
the forward pass returns click probabilities [1/2] and examinations
[1, 1/2], and the bound holds at the click probability 1/2. -/
theorem recursion_entries_bounded_witness :
    WeakParams [⟨1/2, 1/2, 1/2, 1/2⟩] ∧
    tailClicks [⟨0, false, none⟩] 0 [⟨1/2, 1/2, 1/2, 1/2⟩]
      = some ([1/2], [1, 1/2]) ∧
    (0 ≤ (1/2 : ℚ) ∧ (1/2 : ℚ) ≤ 1) := by
  have hw : WeakParams [(⟨1/2, 1/2, 1/2, 1/2⟩ : SessionParam)] := by
    intro p hpm
    simp only [List.mem_singleton] at hpm
    subst hpm
    refine ⟨by norm_num, by norm_num, by norm_num, by norm_num,
      by norm_num, by norm_num, by norm_num, by norm_num⟩
  have ht : tailClicks [(⟨0, false, none⟩ : MResult)] 0 [⟨1/2, 1/2, 1/2, 1/2⟩]
      = some ([1/2], [1, 1/2]) := by
    norm_num [tailClicks, tailClicksAux, satTruthy]
  have hnz : ∀ c ∈ [(1/2 : ℚ)], c ≠ 0 := by
    intro c hcm
    simp only [List.mem_singleton] at hcm
    subst hcm
    norm_num
  refine ⟨hw, ht, ?_⟩
  exact (recursion_entries_bounded [⟨0, false, none⟩] [⟨1/2, 1/2, 1/2, 1/2⟩] 0
    [1/2] [1, 1/2] hw ht hnz).2.2.1 (1/2) (List.mem_singleton.mpr rfl)

theorem lastClickRank_congr (s1 s2 : List MResult)
    (hlen : s1.length = s2.length)
    (hclick : ∀ i, (s1.get? i).map MResult.click = (s2.get? i).map MResult.click) :
    lastClickRank s1 = lastClickRank s2 := by
  have hcr : clickedRanks s1 = clickedRanks s2 := by
    unfold clickedRanks
    rw [hlen]
    apply List.filter_congr
    intro i _
    rw [hclick i]
  unfold lastClickRank
  rw [hcr, hlen]

theorem drop_eq_of_agree (s1 s2 : List MResult) (r : Nat)
    (hlen : s1.length = s2.length)
    (hoff : ∀ i, i ≠ r → s1.get? i = s2.get? i) :
    s1.drop (r + 1) = s2.drop (r + 1) := by
  apply List.ext
  intro n
  rw [List.get?_drop, List.get?_drop]
  exact hoff (r + 1 + n) (by omega)

theorem take_eq_of_agree (s1 s2 : List MResult) (r : Nat)
    (hlen : s1.length = s2.length)
    (hoff : ∀ i, i ≠ r → s1.get? i = s2.get? i) :
    s1.take r = s2.take r := by
  apply List.ext
  intro n
  by_cases hn : n < r
  · rw [List.get?_take hn, List.get?_take hn]
    exact hoff n (by omega)
  · have h1 : (s1.take r).length ≤ n := by
      rw [List.length_take]
      omega
    have h2 : (s2.take r).length ≤ n := by
      rw [List.length_take]
      omega
    rw [List.get?_eq_none.mpr h1, List.get?_eq_none.mpr h2]

theorem get?_eq_of_take_eq {l1 l2 : List ℚ} {k n : Nat}
    (h : l1.take k = l2.take k) (hn : n < k) : l1.get? n = l2.get? n := by
  rw [← List.get?_take hn, h, List.get?_take hn]

theorem tailClicksAux_take_congr (params : List SessionParam) :
    ∀ (k : Nat) (rs1 rs2 : List MResult) (i : Nat) (e : ℚ)
      (o1 o2 : List ℚ × List ℚ),
    rs1.take k = rs2.take k →
    tailClicksAux rs1 i params e = some o1 →
    tailClicksAux rs2 i params e = some o2 →
    o1.1.take k = o2.1.take k ∧ o1.2.take k = o2.2.take k := by
  intro k
  induction k with
  | zero => intro rs1 rs2 i e o1 o2 _ _ _; simp
  | succ k ih =>
    intro rs1 rs2 i e o1 o2 htake h1 h2
    cases rs1 with
    | nil =>
      cases rs2 with
      | nil =>
        simp only [tailClicksAux, Option.some.injEq] at h1 h2
        subst h1
        subst h2
        simp
      | cons b t2 => simp [List.take_succ_cons] at htake
    | cons a t1 =>
      cases rs2 with
      | nil => simp [List.take_succ_cons] at htake
      | cons b t2 =>
        simp only [List.take_succ_cons] at htake
        obtain ⟨hab, htk⟩ := List.cons_eq_cons.mp htake
        subst hab
        cases hpg : params.get? i with
        | none =>
          simp only [tailClicksAux, hpg] at h1
          cases h1
        | some p =>
          by_cases hc : a.click = true
          · simp only [tailClicksAux, hpg, hc, if_true] at h1 h2
            cases hr1 : tailClicksAux t1 (i + 1) params
                (if satTruthy a.sat then p.cont_sat else p.cont_nosat) with
            | none => rw [hr1] at h1; cases h1
            | some pr1 =>
              cases hr2 : tailClicksAux t2 (i + 1) params
                  (if satTruthy a.sat then p.cont_sat else p.cont_nosat) with
              | none => rw [hr2] at h2; cases h2
              | some pr2 =>
                rw [hr1] at h1
                rw [hr2] at h2
                simp only [Option.map_some', Option.some.injEq] at h1 h2
                subst h1
                subst h2
                obtain ⟨hcs, hes⟩ := ih t1 t2 (i + 1) _ pr1 pr2 htk hr1 hr2
                simp [List.take_succ_cons, hcs, hes]
          · have hc2 : a.click = false := by revert hc; cases a.click <;> simp
            simp only [tailClicksAux, hpg, hc2, Bool.false_eq_true, if_false]
              at h1 h2
            by_cases hz : 1 - p.attr * e = 0
            · rw [if_pos hz] at h1
              cases h1
            · rw [if_neg hz] at h1 h2
              cases hr1 : tailClicksAux t1 (i + 1) params
                  (e * p.cont_nosat * (1 - p.attr) / (1 - p.attr * e)) with
              | none => rw [hr1] at h1; cases h1
              | some pr1 =>
                cases hr2 : tailClicksAux t2 (i + 1) params
                    (e * p.cont_nosat * (1 - p.attr) / (1 - p.attr * e)) with
                | none => rw [hr2] at h2; cases h2
                | some pr2 =>
                  rw [hr1] at h1
                  rw [hr2] at h2
                  simp only [Option.map_some', Option.some.injEq] at h1 h2
                  subst h1
                  subst h2
                  obtain ⟨hcs, hes⟩ := ih t1 t2 (i + 1) _ pr1 pr2 htk hr1 hr2
                  simp [List.take_succ_cons, hcs, hes]

/-- C10 amended: provided the rank-0 forward pass succeeds on both sessions,
the continuation factor at rank `r` does not depend on the observed
satisfaction flag of the result at rank `r` itself: two sessions identical in
length, in every click flag, and in every other result, yield identical
`Phi(x,y,z)` for every hidden assignment. -/
theorem phi_ignores_own_sat (s1 s2 : List MResult) (params : List SessionParam)
    (r : Nat) (x y z : Bool)
    (hlen : s1.length = s2.length)
    (hoff : ∀ i, i ≠ r → s1.get? i = s2.get? i)
    (hclick : (s1.get? r).map MResult.click = (s2.get? r).map MResult.click)
    (hsome1 : (tailClicks s1 0 params).isSome = true)
    (hsome2 : (tailClicks s2 0 params).isSome = true) :
    continuationFactor s1 params r x y z
      = continuationFactor s2 params r x y z := by
  have hclick2 : ∀ i, (s1.get? i).map MResult.click
      = (s2.get? i).map MResult.click := by
    intro i
    by_cases hi : i = r
    · subst hi; exact hclick
    · rw [hoff i hi]
  cases haux1 : tailClicksAux s1 0 params 1 with
  | none =>
    rw [tailClicks] at hsome1
    simp only [List.drop_zero, haux1] at hsome1
    cases hsome1
  | some pr1 =>
  cases haux2 : tailClicksAux s2 0 params 1 with
  | none =>
    rw [tailClicks] at hsome2
    simp only [List.drop_zero, haux2] at hsome2
    cases hsome2
  | some pr2 =>
  have ht1 : tailClicks s1 0 params = some (pr1.1, 1 :: pr1.2) := by
    rw [tailClicks]
    simp only [List.drop_zero, haux1, Option.map_some']
  have ht2 : tailClicks s2 0 params = some (pr2.1, 1 :: pr2.2) := by
    rw [tailClicks]
    simp only [List.drop_zero, haux2, Option.map_some']
  have htake : s1.take r = s2.take r := take_eq_of_agree s1 s2 r hlen hoff
  have hexam : (1 :: pr1.2).get? r = (1 :: pr2.2).get? r := by
    cases r with
    | zero => rfl
    | succ n =>
      rw [List.get?_cons_succ, List.get?_cons_succ]
      exact get?_eq_of_take_eq
        (tailClicksAux_take_congr params (n + 1) s1 s2 0 1 pr1 pr2 htake
          haux1 haux2).2 (by omega)
  have hce : ∀ xx prob, contExam s1 params r xx prob
      = contExam s2 params r xx prob := by
    intro xx prob
    rw [contExam, contExam, ht1, ht2]
    simp only [Option.some_bind]
    rw [hexam]
  have htails : tailClicks s1 (r + 1) params = tailClicks s2 (r + 1) params := by
    rw [tailClicks, tailClicks, drop_eq_of_agree s1 s2 r hlen hoff]
  have hct : ∀ xx zz prob, contTail s1 params r xx zz prob
      = contTail s2 params r xx zz prob := by
    intro xx zz prob
    rw [contTail, contTail, lastClickRank_congr s1 s2 hlen hclick2, hlen, htails]
    simp only [hce]
  cases hg1 : s1.get? r with
  | none =>
    have hg2 : s2.get? r = none := by
      cases hg2 : s2.get? r with
      | none => rfl
      | some r2 =>
        rw [hg1, hg2] at hclick
        cases hclick
    simp only [continuationFactor, hg1, hg2]
  | some r1 =>
    obtain ⟨r2, hg2, hcc⟩ : ∃ r2, s2.get? r = some r2 ∧ r1.click = r2.click := by
      cases hg2 : s2.get? r with
      | none =>
        rw [hg1, hg2] at hclick
        cases hclick
      | some r2 =>
        rw [hg1, hg2] at hclick
        simp only [Option.map_some', Option.some.injEq] at hclick
        exact ⟨r2, rfl, hclick⟩
    cases hgp : params.get? r with
    | none => simp only [continuationFactor, hg1, hg2, hgp]
    | some p =>
      simp only [continuationFactor, hg1, hg2, hgp, ← hcc, hct]

/-- C10 counterexample: with boundary parameter values (`cont_sat = 1` at
rank 0, `attr = 1` at rank 1), flipping only the satisfaction flag of the
clicked result at rank 0 changes `Phi(1,1,1)` at rank 0 from a raised
`ZeroDivisionError` in the rank-0 forward pass (satisfied: examination
propagates as 1, making the next no-click probability `1 - 1*1 = 0`) to the
value `1/8` (unsatisfied). -/
theorem phi_reads_own_sat_through_forward_pass :
    continuationFactor [⟨0, true, some true⟩, ⟨1, false, none⟩]
        [⟨1/2, 1/2, 1, 1/2⟩, ⟨1, 1/2, 1/2, 1/2⟩] 0 true true true
      ≠ continuationFactor [⟨0, true, some false⟩, ⟨1, false, none⟩]
        [⟨1/2, 1/2, 1, 1/2⟩, ⟨1, 1/2, 1/2, 1/2⟩] 0 true true true := by
  norm_num [continuationFactor, contTail, contExam, plog, listLogProd,
    tailClicks, tailClicksAux, satTruthy, lastClickRank, clickedRanks,
    List.range_succ]
  simp

/-- C10 witness: two one-result sessions differing only in the satisfaction
flag of their single clicked result, with parameters 1/2: both forward
passes succeed and `Phi(1,1,1)` agrees. -/
theorem phi_ignores_own_sat_witness :
    (tailClicks [⟨0, true, some true⟩] 0 [⟨1/2, 1/2, 1/2, 1/2⟩]).isSome = true ∧
    (tailClicks [⟨0, true, some false⟩] 0 [⟨1/2, 1/2, 1/2, 1/2⟩]).isSome = true ∧
    continuationFactor [⟨0, true, some true⟩] [⟨1/2, 1/2, 1/2, 1/2⟩] 0
        true true true
      = continuationFactor [⟨0, true, some false⟩] [⟨1/2, 1/2, 1/2, 1/2⟩] 0
        true true true := by
  have h1 : (tailClicks [(⟨0, true, some true⟩ : MResult)] 0
      [⟨1/2, 1/2, 1/2, 1/2⟩]).isSome = true := by
    norm_num [tailClicks, tailClicksAux, satTruthy]
  have h2 : (tailClicks [(⟨0, true, some false⟩ : MResult)] 0
      [⟨1/2, 1/2, 1/2, 1/2⟩]).isSome = true := by
    norm_num [tailClicks, tailClicksAux, satTruthy]
  refine ⟨h1, h2, ?_⟩
  apply phi_ignores_own_sat _ _ _ 0 true true true rfl ?_ rfl h1 h2
  intro i hi
  match i with
  | 0 => exact absurd rfl hi
  | n + 1 => rfl
